import Mathlib

/-!
# MCStream codec — verification development

Shallow embedding of the MCStream container format implementation
(`src/types.rs`, `src/palette.rs`, `src/chunk.rs`, `src/packer.rs`,
`src/unpacker.rs`, `src/compression.rs`, `src/header.rs`).

Bytes are modelled as `List Nat` with every stored value reduced modulo 256
at the point where the Rust code performs a fixed-width write; machine
integers are `Nat`/`Int` with explicit `% 2^w` where Rust truncates
(`as u16`, `as u32`) or wraps.  Fallible Rust functions returning
`Result<T, McStreamError>` become `Except McStreamError T`.
-/

set_option maxRecDepth 10000

namespace MCStream

/-- `McStreamError` from `src/error.rs`.  `Io` carries only a tag string,
matching the fact that the code never inspects the payload of an I/O error.
Messages built with `format!` in the source are modelled by fixed strings. -/
inductive McStreamError where
  | ioError (msg : String)
  | invalidMagic
  | unsupportedVersion (v : Nat)
  | unsupportedCompression (v : Nat)
  | chunkIndexError
  | compressionError (msg : String)
  | decompressionError (msg : String)
  | nbtError (msg : String)
  | paletteError (msg : String)
  | fileTooLarge
  | coordinateOutOfRange
  | airInPalette
  | validationError (msg : String)
deriving DecidableEq

/-- `CompressionType` from `src/lib.rs`. -/
inductive CompressionType where
  | none
  | zstandard
  | lz4
  | brotli
deriving DecidableEq

instance {ε α : Type} [DecidableEq ε] [DecidableEq α] : DecidableEq (Except ε α) := fun
  | .error e1, .error e2 =>
    match decEq e1 e2 with
    | isTrue h => isTrue (by rw [h])
    | isFalse h => isFalse (fun hh => h (Except.error.inj hh))
  | .error _, .ok _ => isFalse (fun h => Except.noConfusion h)
  | .ok _, .error _ => isFalse (fun h => Except.noConfusion h)
  | .ok a, .ok b =>
    match decEq a b with
    | isTrue h => isTrue (by rw [h])
    | isFalse h => isFalse (fun hh => h (Except.ok.inj hh))

/-! ## Byte-level primitives (the `byteorder` read/write calls) -/

/-- One byte read from a cursor (`read_u8`); an exhausted buffer is the
`UnexpectedEof` I/O error of `read_exact`/`read_u8`. -/
def readU8 : List Nat → Except McStreamError (Nat × List Nat)
  | [] => .error (.ioError "failed to fill whole buffer")
  | b :: rest => .ok (b, rest)

/-- `read_u16::<LittleEndian>`. -/
def readU16LE (buf : List Nat) : Except McStreamError (Nat × List Nat) :=
  match readU8 buf with
  | .error e => .error e
  | .ok (b0, buf) =>
    match readU8 buf with
    | .error e => .error e
    | .ok (b1, buf) => .ok (b0 + 256 * b1, buf)

/-- `read_u32::<LittleEndian>`. -/
def readU32LE (buf : List Nat) : Except McStreamError (Nat × List Nat) :=
  match readU16LE buf with
  | .error e => .error e
  | .ok (w0, buf) =>
    match readU16LE buf with
    | .error e => .error e
    | .ok (w1, buf) => .ok (w0 + 65536 * w1, buf)

/-- `read_exact` into a buffer of length `n`. -/
def readBytes : Nat → List Nat → Except McStreamError (List Nat × List Nat)
  | 0, buf => .ok ([], buf)
  | _ + 1, [] => .error (.ioError "failed to fill whole buffer")
  | n + 1, b :: rest =>
    match readBytes n rest with
    | .error e => .error e
    | .ok (bs, buf) => .ok (b :: bs, buf)

/-- `write_u16::<LittleEndian>`; the argument is reduced mod 2^16 by the
byte decomposition, exactly as a Rust `u16` (or an `as u16` cast) would be. -/
def writeU16LE (v : Nat) : List Nat :=
  [v % 256, v / 256 % 256]

/-- `write_u32::<LittleEndian>`; reduces mod 2^32 like an `as u32` cast. -/
def writeU32LE (v : Nat) : List Nat :=
  [v % 256, v / 256 % 256, v / 65536 % 256, v / 16777216 % 256]

/-- `write_i32::<LittleEndian>`: the two's-complement 32-bit image. -/
def writeI32LE (x : Int) : List Nat :=
  writeU32LE (x.emod 4294967296).toNat

@[simp] theorem readBytes_append (bs : List Nat) :
    ∀ rest, readBytes bs.length (bs ++ rest) = .ok (bs, rest) := by
  induction bs with
  | nil => intro rest; rfl
  | cons b tail ih => intro rest; simp [readBytes, ih]

@[simp] theorem readU8_cons (b : Nat) (rest : List Nat) :
    readU8 (b :: rest) = .ok (b, rest) := rfl

@[simp] theorem readU16LE_write (v : Nat) (rest : List Nat) :
    readU16LE (writeU16LE v ++ rest) = .ok (v % 65536, rest) := by
  simp only [writeU16LE, List.cons_append, List.nil_append, readU16LE, readU8_cons]
  congr 2
  omega

@[simp] theorem readU32LE_write (v : Nat) (rest : List Nat) :
    readU32LE (writeU32LE v ++ rest) = .ok (v % 4294967296, rest) := by
  simp only [writeU32LE, List.cons_append, List.nil_append, readU32LE, readU16LE, readU8]
  congr 2
  omega

/-! ## Data model (`src/types.rs`)

Block-type identifiers are the UTF-8 byte strings underlying the Rust
`String` values (`String::len`, `as_bytes`, `==` and `contains` on Rust
strings all act on exactly these bytes). -/

/-- `BlockPos` (global signed 32-bit coordinates). -/
structure BlockPos where
  x : Int
  y : Int
  z : Int
deriving DecidableEq

/-- `ChunkPos`. -/
structure ChunkPos where
  x : Int
  z : Int
deriving DecidableEq

/-- `LocalBlockPos` (`x z : u8`, `y : u16`). -/
structure LocalBlockPos where
  x : Nat
  y : Nat
  z : Nat
deriving DecidableEq

/-- `Block` (`palette_index : u16`). -/
structure Block where
  palette_index : Nat
  pos : LocalBlockPos
  nbt : Option (List Nat)
deriving DecidableEq

/-- `ChunkData`. -/
structure ChunkData where
  pos : ChunkPos
  palette : List (List Nat)
  blocks : List Block
deriving DecidableEq

/-- `ChunkIndexEntry` (`chunk_x chunk_z : i32`, offsets `u32`). -/
structure ChunkIndexEntry where
  chunk_x : Int
  chunk_z : Int
  data_offset : Nat
  compressed_size : Nat
deriving DecidableEq

/-- `BlockPos::chunk_pos`: `x >> 4` on `i32` is an arithmetic right shift,
i.e. floor division by 16 (`Int.fdiv`), for every 32-bit value. -/
def BlockPos.chunk_pos (p : BlockPos) : ChunkPos :=
  { x := Int.fdiv p.x 16, z := Int.fdiv p.z 16 }

/-- `BlockPos::local_pos`: `x & 0xF` on `i32` is the nonnegative remainder
mod 16; `(y + 64) as u16` keeps the low 16 bits of the two's-complement
sum, i.e. the nonnegative remainder mod 65536. -/
def BlockPos.local_pos (p : BlockPos) : LocalBlockPos :=
  { x := (p.x.emod 16).toNat
    y := ((p.y + 64).emod 65536).toNat
    z := (p.z.emod 16).toNat }

/-- `LocalBlockPos::actual_y`. -/
def LocalBlockPos.actual_y (p : LocalBlockPos) : Int :=
  (p.y : Int) - 64

/-! ## Air marker and UTF-8 validity -/

/-- The UTF-8 bytes of the air marker `"minecraft:air"`. -/
def airMarker : List Nat :=
  [109, 105, 110, 101, 99, 114, 97, 102, 116, 58, 97, 105, 114]

/-- Contiguous-substring search: does `needle` occur in the list? -/
def containsSeq (needle : List Nat) : List Nat → Bool
  | [] => needle.isEmpty
  | b :: rest => needle.isPrefixOf (b :: rest) || containsSeq needle rest

/-- Rust `id.contains("minecraft:air")`: substring search on the bytes. -/
def isAir (id : List Nat) : Bool :=
  containsSeq airMarker id

/-- State machine for `String::from_utf8` validity (RFC 3629):
`pending` continuation bytes remain, the next of which must lie in
`[lo, hi]`; later continuation bytes must lie in `[0x80, 0xBF]`. -/
def validUtf8Aux : List Nat → Nat → Nat → Nat → Bool
  | [], pending, _, _ => pending == 0
  | b :: rest, 0, _, _ =>
    if b < 0x80 then validUtf8Aux rest 0 0 0
    else if b < 0xC2 then false
    else if b ≤ 0xDF then validUtf8Aux rest 1 0x80 0xBF
    else if b = 0xE0 then validUtf8Aux rest 2 0xA0 0xBF
    else if b = 0xED then validUtf8Aux rest 2 0x80 0x9F
    else if b ≤ 0xEF then validUtf8Aux rest 2 0x80 0xBF
    else if b = 0xF0 then validUtf8Aux rest 3 0x90 0xBF
    else if b ≤ 0xF3 then validUtf8Aux rest 3 0x80 0xBF
    else if b = 0xF4 then validUtf8Aux rest 3 0x80 0x8F
    else false
  | b :: rest, pending + 1, lo, hi =>
    if lo ≤ b ∧ b ≤ hi then validUtf8Aux rest pending 0x80 0xBF else false

/-- A byte string is accepted by `String::from_utf8` iff it is valid UTF-8.
Rust `String` values (such as every palette entry) satisfy this by type. -/
def validUtf8 (l : List Nat) : Bool :=
  validUtf8Aux l 0 0 0

/-! ## Palette codec (`src/palette.rs`) -/

/-- `validate_palette`. -/
def validate_palette (palette : List (List Nat)) : Except McStreamError Unit :=
  if palette.any (fun id => isAir id) then .error .airInPalette else .ok ()

/-- The per-entry loop of `write_palette`: length prefix (u16 LE) and raw
bytes per entry, failing on an entry longer than `u16::MAX`. -/
def writePaletteEntries : List (List Nat) → Except McStreamError (List Nat)
  | [] => .ok []
  | entry :: rest =>
    if entry.length > 65535 then .error (.paletteError "调色板条目长度超过上限")
    else
      match writePaletteEntries rest with
      | .error e => .error e
      | .ok bytes => .ok (writeU16LE entry.length ++ entry ++ bytes)

/-- `write_palette`. -/
def write_palette (palette : List (List Nat)) : Except McStreamError (List Nat) :=
  match validate_palette palette with
  | .error e => .error e
  | .ok _ =>
    if palette.length > 65535 then .error (.paletteError "调色板条目数超过上限")
    else
      match writePaletteEntries palette with
      | .error e => .error e
      | .ok bytes => .ok (writeU16LE palette.length ++ bytes)

/-- The per-entry loop of `read_palette`: length, raw bytes,
`String::from_utf8` validity, air rejection. -/
def readPaletteEntries : Nat → List Nat → Except McStreamError (List (List Nat) × List Nat)
  | 0, buf => .ok ([], buf)
  | n + 1, buf =>
    match readU16LE buf with
    | .error e => .error e
    | .ok (str_len, buf) =>
      match readBytes str_len buf with
      | .error e => .error e
      | .ok (entry, buf) =>
        if ¬ validUtf8 entry then .error (.paletteError "非UTF-8编码的调色板条目")
        else if isAir entry then .error .airInPalette
        else
          match readPaletteEntries n buf with
          | .error e => .error e
          | .ok (palette, buf) => .ok (entry :: palette, buf)

/-- `read_palette`. -/
def read_palette (buf : List Nat) : Except McStreamError (List (List Nat) × List Nat) :=
  match readU16LE buf with
  | .error e => .error e
  | .ok (palette_size, buf) => readPaletteEntries palette_size buf

/-! ## Chunk payload codec (`src/chunk.rs`) -/

/-- `validate_local_pos`. -/
def validate_local_pos (pos : LocalBlockPos) : Except McStreamError Unit :=
  if pos.x > 15 ∨ pos.z > 15 ∨ pos.y > 383 then .error .coordinateOutOfRange
  else .ok ()

/-- The fixed 7-byte record loop of `serialize_chunk`. -/
def serializeRecords : List Block → List Nat
  | [] => []
  | b :: rest =>
    writeU16LE b.palette_index ++ [b.pos.x % 256] ++ writeU16LE b.pos.y
      ++ [b.pos.z % 256] ++ [if b.nbt.isSome then 1 else 0] ++ serializeRecords rest

/-- The metadata-blob loop of `serialize_chunk` (run over `nbt_blocks`,
the blocks whose `nbt` is `Some`). -/
def writeNbtBlobs : List Block → List Nat
  | [] => []
  | b :: rest =>
    (match b.nbt with
     | some nbt_data => writeU32LE nbt_data.length ++ nbt_data
     | none => []) ++ writeNbtBlobs rest

/-- `serialize_chunk`. -/
def serialize_chunk (chunk : ChunkData) : Except McStreamError (List Nat) :=
  match write_palette chunk.palette with
  | .error e => .error e
  | .ok pal =>
    let nbt_blocks := chunk.blocks.filter (fun b => b.nbt.isSome)
    .ok (pal ++ writeU32LE chunk.blocks.length ++ serializeRecords chunk.blocks
         ++ writeU32LE nbt_blocks.length ++ writeNbtBlobs nbt_blocks)

/-- The fixed-record reading loop of `deserialize_chunk`: accumulates the
growing `blocks` vector and the indices of records carrying metadata. -/
def readRecords :
    Nat → List Block → List Nat → List Nat →
    Except McStreamError (List Block × List Nat × List Nat)
  | 0, blocks, nbt_blocks, buf => .ok (blocks, nbt_blocks, buf)
  | n + 1, blocks, nbt_blocks, buf =>
    match readU16LE buf with
    | .error e => .error e
    | .ok (palette_index, buf) =>
      match readU8 buf with
      | .error e => .error e
      | .ok (x, buf) =>
        match readU16LE buf with
        | .error e => .error e
        | .ok (y, buf) =>
          match readU8 buf with
          | .error e => .error e
          | .ok (z, buf) =>
            match readU8 buf with
            | .error e => .error e
            | .ok (flags, buf) =>
              let has_nbt := Nat.land flags 1 ≠ 0
              let blocks := blocks ++
                [{ palette_index, pos := ⟨x, y, z⟩,
                   nbt := if has_nbt then some [] else none }]
              let nbt_blocks :=
                if has_nbt then nbt_blocks ++ [blocks.length - 1] else nbt_blocks
              readRecords n blocks nbt_blocks buf

/-- `blocks.get_mut(i)` followed by `block.nbt = Some(data)`: out-of-range
indices leave the list unchanged, like `get_mut` returning `None`. -/
def setNbt : List Block → Nat → List Nat → List Block
  | [], _, _ => []
  | b :: rest, 0, nbt_data => { b with nbt := some nbt_data } :: rest
  | b :: rest, n + 1, nbt_data => b :: setNbt rest n nbt_data

/-- The metadata-blob reading loop of `deserialize_chunk`. -/
def readNbtLoop :
    List Nat → List Block → List Nat →
    Except McStreamError (List Block × List Nat)
  | [], blocks, buf => .ok (blocks, buf)
  | i :: rest, blocks, buf =>
    match readU32LE buf with
    | .error e => .error e
    | .ok (nbt_len, buf) =>
      match readBytes nbt_len buf with
      | .error e => .error e
      | .ok (nbt_data, buf) => readNbtLoop rest (setNbt blocks i nbt_data) buf

/-- `deserialize_chunk`. -/
def deserialize_chunk (data : List Nat) (pos : ChunkPos) :
    Except McStreamError ChunkData :=
  match read_palette data with
  | .error e => .error e
  | .ok (palette, buf) =>
    match readU32LE buf with
    | .error e => .error e
    | .ok (block_count, buf) =>
      match readRecords block_count [] [] buf with
      | .error e => .error e
      | .ok (blocks, nbt_blocks, buf) =>
        match readU32LE buf with
        | .error e => .error e
        | .ok (nbt_count, buf) =>
          if nbt_count ≠ nbt_blocks.length then
            .error (.nbtError "NBT数据数量与标记不一致")
          else
            match readNbtLoop nbt_blocks blocks buf with
            | .error e => .error e
            | .ok (blocks, _) => .ok { pos, palette, blocks }

/-! ## Round trip of the chunk payload codec -/

/-- What the fixed-record section stores of a block: everything except the
metadata bytes, whose presence is kept as a `Some []` placeholder. -/
def blockPlaceholder (b : Block) : Block :=
  { b with nbt := if b.nbt.isSome then some [] else none }

/-- Absolute indices (starting at `k`) of the metadata-flagged blocks. -/
def flaggedIdxsFrom : List Block → Nat → List Nat
  | [], _ => []
  | b :: rest, k =>
    if b.nbt.isSome then k :: flaggedIdxsFrom rest (k + 1)
    else flaggedIdxsFrom rest (k + 1)

theorem flaggedIdxsFrom_length (bs : List Block) :
    ∀ k, (flaggedIdxsFrom bs k).length = (bs.filter fun b => b.nbt.isSome).length := by
  induction bs with
  | nil => intro k; rfl
  | cons b rest ih =>
    intro k
    by_cases hb : b.nbt.isSome <;> simp [flaggedIdxsFrom, List.filter_cons, hb, ih]

theorem writePaletteEntries_ok (palette : List (List Nat))
    (hlen : ∀ id ∈ palette, id.length ≤ 65535) :
    ∃ bytes, writePaletteEntries palette = .ok bytes := by
  induction palette with
  | nil => exact ⟨[], rfl⟩
  | cons e rest ih =>
    obtain ⟨bytes, hbytes⟩ := ih (fun id h => hlen id (List.mem_cons_of_mem _ h))
    have he : ¬ e.length > 65535 := by
      have := hlen e (List.mem_cons_self _ _); omega
    exact ⟨writeU16LE e.length ++ e ++ bytes, by simp [writePaletteEntries, he, hbytes]⟩

theorem readPaletteEntries_write (palette : List (List Nat))
    (hair : ∀ id ∈ palette, isAir id = false)
    (hlen : ∀ id ∈ palette, id.length ≤ 65535)
    (hutf : ∀ id ∈ palette, validUtf8 id = true) :
    ∀ bytes rest, writePaletteEntries palette = .ok bytes →
      readPaletteEntries palette.length (bytes ++ rest) = .ok (palette, rest) := by
  induction palette with
  | nil =>
    intro bytes rest h
    cases h
    rfl
  | cons e tail ih =>
    intro bytes rest h
    have he : ¬ e.length > 65535 := by
      have := hlen e (List.mem_cons_self _ _); omega
    obtain ⟨tbytes, htb⟩ :=
      writePaletteEntries_ok tail (fun id hm => hlen id (List.mem_cons_of_mem _ hm))
    rw [writePaletteEntries, if_neg he, htb] at h
    cases h
    have hmod : e.length % 65536 = e.length := Nat.mod_eq_of_lt (by omega)
    simp only [List.length_cons, readPaletteEntries, List.append_assoc, readU16LE_write,
      hmod, readBytes_append, hutf e (List.mem_cons_self _ _),
      hair e (List.mem_cons_self _ _), Bool.true_eq_false, not_true_eq_false, if_false,
      Bool.false_eq_true, if_true, not_false_eq_true, if_neg, ite_false]
    rw [ih (fun id hm => hair id (List.mem_cons_of_mem _ hm))
          (fun id hm => hlen id (List.mem_cons_of_mem _ hm))
          (fun id hm => hutf id (List.mem_cons_of_mem _ hm)) tbytes rest htb]

theorem read_write_palette (palette : List (List Nat))
    (hair : ∀ id ∈ palette, isAir id = false)
    (hcount : palette.length ≤ 65535)
    (hlen : ∀ id ∈ palette, id.length ≤ 65535)
    (hutf : ∀ id ∈ palette, validUtf8 id = true) :
    ∃ pal, write_palette palette = .ok pal ∧
      ∀ rest, read_palette (pal ++ rest) = .ok (palette, rest) := by
  have hval : validate_palette palette = .ok () := by
    have : palette.any (fun id => isAir id) = false := by
      simp only [List.any_eq_false]
      exact fun id hm => by simp [hair id hm]
    simp [validate_palette, this]
  obtain ⟨bytes, hbytes⟩ := writePaletteEntries_ok palette hlen
  have hc : ¬ palette.length > 65535 := by omega
  refine ⟨writeU16LE palette.length ++ bytes, ?_, ?_⟩
  · simp [write_palette, hval, hc, hbytes]
  · intro rest
    have hmod : palette.length % 65536 = palette.length := Nat.mod_eq_of_lt (by omega)
    simp only [read_palette, List.append_assoc, readU16LE_write, hmod]
    exact readPaletteEntries_write palette hair hlen hutf bytes rest hbytes

theorem readRecords_write (bs : List Block)
    (hwf : ∀ b ∈ bs, b.palette_index < 65536 ∧ b.pos.x < 256 ∧
      b.pos.y < 65536 ∧ b.pos.z < 256) :
    ∀ acc idxs rest,
      readRecords bs.length acc idxs (serializeRecords bs ++ rest) =
        .ok (acc ++ bs.map blockPlaceholder, idxs ++ flaggedIdxsFrom bs acc.length, rest) := by
  induction bs with
  | nil => intro acc idxs rest; simp [readRecords, serializeRecords, flaggedIdxsFrom]
  | cons b tail ih =>
    intro acc idxs rest
    obtain ⟨hpi, hx, hy, hz⟩ := hwf b (List.mem_cons_self _ _)
    have ih' := ih (fun b hm => hwf b (List.mem_cons_of_mem _ hm))
    simp only [List.length_cons, serializeRecords, List.append_assoc, List.cons_append,
      List.nil_append, readRecords, readU16LE_write, readU8_cons, Nat.mod_eq_of_lt hpi,
      Nat.mod_eq_of_lt hy, Nat.mod_eq_of_lt hx, Nat.mod_eq_of_lt hz]
    cases hb : b.nbt with
    | none =>
      have hflag : ¬ (Nat.land 0 1 ≠ 0) := by decide
      have hpb : blockPlaceholder b =
          { palette_index := b.palette_index, pos := ⟨b.pos.x, b.pos.y, b.pos.z⟩,
            nbt := none } := by
        cases b with
        | mk pi pos nbt => cases pos; simp_all [blockPlaceholder]
      simp only [hb, Option.isSome_none, Bool.false_eq_true, if_false, hflag, ite_false,
        if_neg hflag]
      rw [ih']
      simp [flaggedIdxsFrom, hb, hpb, List.append_assoc]
    | some d =>
      have hflag : Nat.land 1 1 ≠ 0 := by decide
      have hpb : blockPlaceholder b =
          { palette_index := b.palette_index, pos := ⟨b.pos.x, b.pos.y, b.pos.z⟩,
            nbt := some [] } := by
        cases b with
        | mk pi pos nbt => cases pos; simp_all [blockPlaceholder]
      simp only [hb, Option.isSome_some, if_true, ite_true, if_pos hflag]
      rw [ih']
      simp [flaggedIdxsFrom, hb, hpb, List.append_assoc]

theorem setNbt_append (done : List Block) :
    ∀ (rest : List Block) (d : List Nat),
      setNbt (done ++ rest) done.length d = done ++ setNbt rest 0 d := by
  induction done with
  | nil => intro rest d; rfl
  | cons b tail ih => intro rest d; simp [setNbt, ih]

theorem readNbtLoop_write (bs : List Block)
    (hnbt : ∀ b ∈ bs, ∀ d, b.nbt = some d → d.length < 4294967296) :
    ∀ (done : List Block) (rest : List Nat),
      readNbtLoop (flaggedIdxsFrom bs done.length) (done ++ bs.map blockPlaceholder)
        (writeNbtBlobs (bs.filter fun b => b.nbt.isSome) ++ rest) =
        .ok (done ++ bs, rest) := by
  induction bs with
  | nil => intro done rest; simp [flaggedIdxsFrom, writeNbtBlobs, readNbtLoop]
  | cons b tail ih =>
    intro done rest
    have ih' := ih (fun b hm d hd => hnbt b (List.mem_cons_of_mem _ hm) d hd)
    cases hb : b.nbt with
    | none =>
      have hpb : blockPlaceholder b = b := by
        cases b with
        | mk pi pos nbt => simp_all [blockPlaceholder]
      have hstep : done ++ b :: List.map blockPlaceholder tail =
          (done ++ [b]) ++ List.map blockPlaceholder tail := by simp
      simp only [flaggedIdxsFrom, hb, Option.isSome_none, Bool.false_eq_true, if_false,
        ite_false, List.filter_cons, List.map_cons, hpb, hstep]
      have hlen : done.length + 1 = (done ++ [b]).length := by simp
      rw [hlen, ih' (done ++ [b]) rest]
      simp
    | some d =>
      have hdlen : d.length % 4294967296 = d.length :=
        Nat.mod_eq_of_lt (hnbt b (List.mem_cons_self _ _) d hb)
      have hpb : blockPlaceholder b =
          { b with nbt := some [] } := by simp [blockPlaceholder, hb]
      simp only [flaggedIdxsFrom, hb, Option.isSome_some, if_true, ite_true,
        List.filter_cons, List.map_cons, hpb, writeNbtBlobs, readNbtLoop,
        List.append_assoc, readU32LE_write, hdlen, readBytes_append]
      rw [setNbt_append done ({ b with nbt := some [] } :: List.map blockPlaceholder tail) d]
      have hres : { b with nbt := some d } = b := by
        cases b with
        | mk pi pos nbt => simp_all
      have hstep : done ++ setNbt ({ b with nbt := some [] } :: List.map blockPlaceholder tail) 0 d =
          (done ++ [b]) ++ List.map blockPlaceholder tail := by
        simp [setNbt, hres]
      rw [hstep]
      have hlen : done.length + 1 = (done ++ [b]).length := by simp
      rw [hlen, ih' (done ++ [b]) rest]
      simp

/-- C2 (amended): for every chunk whose palette contains no air-marked
identifier, has at most 65535 entries each of at most 65535 bytes (valid
UTF-8, as every Rust `String` is by type), whose block count and metadata
count fit in `u32`, whose block fields fit their `u16`/`u8`/`u16` types,
and **whose every metadata blob is shorter than 2^32 bytes**,
`deserialize_chunk` applied to the output of `serialize_chunk` (tagged with
the chunk's coordinate) returns the chunk unchanged: same palette and same
ordered block list. -/
theorem serialize_deserialize (c : ChunkData)
    (hair : ∀ id ∈ c.palette, isAir id = false)
    (hcount : c.palette.length ≤ 65535)
    (hlen : ∀ id ∈ c.palette, id.length ≤ 65535)
    (hutf : ∀ id ∈ c.palette, validUtf8 id = true)
    (hbc : c.blocks.length < 4294967296)
    (hmc : (c.blocks.filter fun b => b.nbt.isSome).length < 4294967296)
    (hwf : ∀ b ∈ c.blocks, b.palette_index < 65536 ∧ b.pos.x < 256 ∧
      b.pos.y < 65536 ∧ b.pos.z < 256)
    (hnbt : ∀ b ∈ c.blocks, ∀ d, b.nbt = some d → d.length < 4294967296) :
    ∃ bytes, serialize_chunk c = .ok bytes ∧ deserialize_chunk bytes c.pos = .ok c := by
  obtain ⟨pal, hpal, hread⟩ := read_write_palette c.palette hair hcount hlen hutf
  refine ⟨pal ++ writeU32LE c.blocks.length ++ serializeRecords c.blocks
      ++ writeU32LE (c.blocks.filter fun b => b.nbt.isSome).length
      ++ writeNbtBlobs (c.blocks.filter fun b => b.nbt.isSome), ?_, ?_⟩
  · simp [serialize_chunk, hpal]
  · have hloop := readNbtLoop_write c.blocks hnbt [] []
    simp only [List.nil_append, List.append_nil, List.length_nil] at hloop
    have hflen := flaggedIdxsFrom_length c.blocks 0
    simp only [deserialize_chunk, List.append_assoc, hread, readU32LE_write,
      Nat.mod_eq_of_lt hbc, Nat.mod_eq_of_lt hmc, readRecords_write c.blocks hwf,
      List.nil_append, List.length_nil, hflen, ne_eq, not_true_eq_false, if_false,
      ite_false, hloop]

/-- Concrete chunk exercising `serialize_deserialize`. -/
def rtChunk : ChunkData :=
  { pos := ⟨1, 2⟩
    palette := [[115, 116, 111, 110, 101]]
    blocks := [⟨0, ⟨1, 2, 3⟩, some [7, 8]⟩, ⟨0, ⟨0, 0, 0⟩, none⟩] }

/-- C2 witness: `serialize_deserialize` applied at `rtChunk`, every
hypothesis discharged by evaluation. -/
theorem serialize_deserialize_witness :
    (∀ id ∈ rtChunk.palette, isAir id = false) ∧
    (∀ b ∈ rtChunk.blocks, ∀ d, b.nbt = some d → d.length < 4294967296) ∧
    ∃ bytes, serialize_chunk rtChunk = .ok bytes ∧
      deserialize_chunk bytes rtChunk.pos = .ok rtChunk :=
  ⟨by decide, by decide,
    serialize_deserialize rtChunk (by decide) (by decide) (by decide) (by decide)
      (by decide) (by decide) (by decide) (by decide)⟩

/-- The chunk refuting C2 as stated: one block whose metadata blob has
exactly 2^32 bytes.  Every hypothesis the claim states holds for it. -/
def bigBlobChunk : ChunkData :=
  { pos := ⟨0, 0⟩
    palette := [[97]]
    blocks := [⟨0, ⟨0, 0, 0⟩, some (List.replicate 4294967296 0)⟩] }

/-- The bytes `serialize_chunk` produces for `bigBlobChunk`: the blob's
`u32` length prefix wraps to 0. -/
def bigBlobBytes : List Nat :=
  [1, 0, 1, 0, 97] ++ [1, 0, 0, 0] ++ [0, 0, 0, 0, 0, 0, 1] ++ [1, 0, 0, 0]
    ++ [0, 0, 0, 0] ++ List.replicate 4294967296 0

/-- What `deserialize_chunk` actually returns for those bytes: the blob
comes back empty. -/
def bigBlobOut : ChunkData :=
  { pos := ⟨0, 0⟩
    palette := [[97]]
    blocks := [⟨0, ⟨0, 0, 0⟩, some []⟩] }

/-- `serialize_chunk` on a single-block chunk whose metadata blob has 2^32
bytes: the blob's `u32` length prefix wraps to 0. -/
theorem serialize_chunk_bigBlob (R : List Nat) (hR : R.length = 4294967296) :
    serialize_chunk ⟨⟨0, 0⟩, [[97]], [⟨0, ⟨0, 0, 0⟩, some R⟩]⟩ =
      .ok ([1, 0, 1, 0, 97] ++ [1, 0, 0, 0] ++ [0, 0, 0, 0, 0, 0, 1] ++ [1, 0, 0, 0]
        ++ [0, 0, 0, 0] ++ R) := by
  simp [serialize_chunk, write_palette, validate_palette, writePaletteEntries, isAir,
    containsSeq, airMarker, List.isPrefixOf, writeU16LE, writeU32LE, serializeRecords,
    writeNbtBlobs, List.filter, hR]

/-- `deserialize_chunk` on those bytes reads a zero-length blob and ignores
the trailing `R`. -/
theorem deserialize_chunk_bigBlob (R : List Nat) (pos : ChunkPos) :
    deserialize_chunk ([1, 0, 1, 0, 97] ++ [1, 0, 0, 0] ++ [0, 0, 0, 0, 0, 0, 1]
        ++ [1, 0, 0, 0] ++ [0, 0, 0, 0] ++ R) pos =
      .ok ⟨pos, [[97]], [⟨0, ⟨0, 0, 0⟩, some []⟩]⟩ := rfl

/-- C2 counterexample: `bigBlobChunk` satisfies every hypothesis of the
claim as stated (no air in palette, palette and entry sizes within `u16`,
block count and metadata count within `u32`), yet decoding its encoding
does not return the same block list: the 2^32-byte metadata blob comes
back empty because `nbt_data.len() as u32` wrapped to 0. -/
theorem serialize_deserialize_counterexample :
    isAir [97] = false ∧
    bigBlobChunk.palette.length ≤ 65535 ∧
    ([97] : List Nat).length ≤ 65535 ∧
    bigBlobChunk.blocks.length < 4294967296 ∧
    (bigBlobChunk.blocks.filter fun b => b.nbt.isSome).length < 4294967296 ∧
    serialize_chunk bigBlobChunk = .ok bigBlobBytes ∧
    deserialize_chunk bigBlobBytes bigBlobChunk.pos = .ok bigBlobOut ∧
    bigBlobOut ≠ bigBlobChunk := by
  refine ⟨by decide, by decide, by decide, by decide, by decide, ?_, ?_, ?_⟩
  · exact serialize_chunk_bigBlob (List.replicate 4294967296 0)
      (by rw [List.length_replicate])
  · exact deserialize_chunk_bigBlob (List.replicate 4294967296 0) ⟨0, 0⟩
  · intro h
    have h1 : ([] : List Nat) = List.replicate 4294967296 0 :=
      congrArg (fun c => (c.blocks.head?.bind fun b => b.nbt).getD []) h
    have h2 := congrArg List.length h1
    rw [List.length_replicate, List.length_nil] at h2
    omega

/-! ## Deserialization applies no local-position guard -/

theorem readU8_ne_coord (buf : List Nat) :
    readU8 buf ≠ .error .coordinateOutOfRange := by
  cases buf <;> simp [readU8]

theorem readU16LE_ne_coord (buf : List Nat) :
    readU16LE buf ≠ .error .coordinateOutOfRange := by
  unfold readU16LE
  split
  · next e h => intro hc; injection hc with he; subst he; exact readU8_ne_coord _ h
  · next p h =>
    split
    · next e h2 => intro hc; injection hc with he; subst he; exact readU8_ne_coord _ h2
    · next => simp

theorem readU32LE_ne_coord (buf : List Nat) :
    readU32LE buf ≠ .error .coordinateOutOfRange := by
  unfold readU32LE
  split
  · next e h => intro hc; injection hc with he; subst he; exact readU16LE_ne_coord _ h
  · next p h =>
    split
    · next e h2 => intro hc; injection hc with he; subst he; exact readU16LE_ne_coord _ h2
    · next => simp

theorem readBytes_ne_coord : ∀ (n : Nat) (buf : List Nat),
    readBytes n buf ≠ .error .coordinateOutOfRange := by
  intro n
  induction n with
  | zero => intro buf; simp [readBytes]
  | succ n ih =>
    intro buf
    cases buf with
    | nil => simp [readBytes]
    | cons b rest =>
      simp only [readBytes]
      split
      · next e h => intro hc; injection hc with he; subst he; exact ih rest h
      · next => simp

theorem readPaletteEntries_ne_coord : ∀ (n : Nat) (buf : List Nat),
    readPaletteEntries n buf ≠ .error .coordinateOutOfRange := by
  intro n
  induction n with
  | zero => intro buf; simp [readPaletteEntries]
  | succ n ih =>
    intro buf
    simp only [readPaletteEntries]
    split
    · next e h => intro hc; injection hc with he; subst he; exact readU16LE_ne_coord _ h
    · next p h =>
      split
      · next e h2 => intro hc; injection hc with he; subst he; exact readBytes_ne_coord _ _ h2
      · next q h2 =>
        split
        · simp
        · split
          · simp
          · split
            · next e h3 => intro hc; injection hc with he; subst he; exact ih _ h3
            · next => simp

theorem read_palette_ne_coord (buf : List Nat) :
    read_palette buf ≠ .error .coordinateOutOfRange := by
  unfold read_palette
  split
  · next e h => intro hc; injection hc with he; subst he; exact readU16LE_ne_coord _ h
  · next p h => exact readPaletteEntries_ne_coord _ _

theorem readRecords_ne_coord : ∀ (n : Nat) (blocks : List Block) (idxs buf : List Nat),
    readRecords n blocks idxs buf ≠ .error .coordinateOutOfRange := by
  intro n
  induction n with
  | zero => intro blocks idxs buf; simp [readRecords]
  | succ n ih =>
    intro blocks idxs buf
    simp only [readRecords]
    split
    · next e h => intro hc; injection hc with he; subst he; exact readU16LE_ne_coord _ h
    · next p h =>
      split
      · next e h2 => intro hc; injection hc with he; subst he; exact readU8_ne_coord _ h2
      · next q h2 =>
        split
        · next e h3 => intro hc; injection hc with he; subst he; exact readU16LE_ne_coord _ h3
        · next r h3 =>
          split
          · next e h4 => intro hc; injection hc with he; subst he; exact readU8_ne_coord _ h4
          · next s h4 =>
            split
            · next e h5 => intro hc; injection hc with he; subst he; exact readU8_ne_coord _ h5
            · next t h5 => exact ih _ _ _

theorem readNbtLoop_ne_coord : ∀ (idxs : List Nat) (blocks : List Block) (buf : List Nat),
    readNbtLoop idxs blocks buf ≠ .error .coordinateOutOfRange := by
  intro idxs
  induction idxs with
  | nil => intro blocks buf; simp [readNbtLoop]
  | cons i rest ih =>
    intro blocks buf
    simp only [readNbtLoop]
    split
    · next e h => intro hc; injection hc with he; subst he; exact readU32LE_ne_coord _ h
    · next p h =>
      split
      · next e h2 => intro hc; injection hc with he; subst he; exact readBytes_ne_coord _ _ h2
      · next q h2 => exact ih _ _

/-- C4 (amended): `deserialize_chunk` does not check the local-position
guard at all — no execution of it can produce `CoordinateOutOfRange`;
a 7-byte record violating x ≤ 15, z ≤ 15, y ≤ 383 is accepted.
(The guard is enforced only on the encoder side, in `add_block` and
`add_chunk`.) -/
theorem deserialize_chunk_ne_coord (data : List Nat) (pos : ChunkPos) :
    deserialize_chunk data pos ≠ .error .coordinateOutOfRange := by
  unfold deserialize_chunk
  split
  · next e h => intro hc; injection hc with he; subst he; exact read_palette_ne_coord _ h
  · next p h =>
    split
    · next e h2 => intro hc; injection hc with he; subst he; exact readU32LE_ne_coord _ h2
    · next q h2 =>
      split
      · next e h3 => intro hc; injection hc with he; subst he; exact readRecords_ne_coord _ _ _ _ h3
      · next r h3 =>
        split
        · next e h4 => intro hc; injection hc with he; subst he; exact readU32LE_ne_coord _ h4
        · next s h4 =>
          split
          · simp
          · split
            · next e h5 => intro hc; injection hc with he; subst he; exact readNbtLoop_ne_coord _ _ _ h5
            · next => simp

/-- C4 counterexample: a chunk payload whose single 7-byte record carries
local x = 200 (far beyond the `x ≤ 15` guard) is accepted by
`deserialize_chunk` and returned in the block list, although
`validate_local_pos` rejects that very position — the claimed
coordinate-range failure does not happen. -/
theorem deserialize_chunk_no_guard_counterexample :
    deserialize_chunk
        [1, 0, 1, 0, 97, 1, 0, 0, 0, 0, 0, 200, 0, 0, 0, 0, 0, 0, 0, 0] ⟨0, 0⟩
      = .ok ⟨⟨0, 0⟩, [[97]], [⟨0, ⟨200, 0, 0⟩, none⟩]⟩ ∧
    validate_local_pos ⟨200, 0, 0⟩ = .error .coordinateOutOfRange := by
  exact ⟨by decide, by decide⟩

/-! ## Encoder (`src/packer.rs`)

The `HashMap<ChunkPos, ChunkData>` is modelled as an association list with
unique keys; `entry().or_insert_with()` becomes lookup-or-default followed
by an insert that replaces the entry with the same key. -/

/-- `HashMap::get` on the chunk map. -/
def lookupChunk : List (ChunkPos × ChunkData) → ChunkPos → Option ChunkData
  | [], _ => none
  | (p, c) :: rest, pos => if p = pos then some c else lookupChunk rest pos

/-- `HashMap::insert` on the chunk map (replaces an existing key). -/
def insertChunk : List (ChunkPos × ChunkData) → ChunkPos → ChunkData →
    List (ChunkPos × ChunkData)
  | [], pos, c => [(pos, c)]
  | (p, c0) :: rest, pos, c =>
    if p = pos then (p, c) :: rest else (p, c0) :: insertChunk rest pos c

/-- `McsEncoder`. -/
structure McsEncoder where
  compression : CompressionType
  has_signature : Bool
  chunks : List (ChunkPos × ChunkData)
  signature : Option (List Nat)
deriving DecidableEq

/-- `McsEncoder::new`. -/
def McsEncoder.new (compression : CompressionType) : McsEncoder :=
  { compression, has_signature := false, chunks := [], signature := none }

/-- `palette.iter().position(|id| *id == block_id)`. -/
def paletteIdxOf (palette : List (List Nat)) (block_id : List Nat) : Option Nat :=
  match palette with
  | [] => none
  | id :: rest =>
    if id = block_id then some 0 else (paletteIdxOf rest block_id).map (· + 1)

/-- `McsEncoder::add_block`.  The palette index is reduced mod 2^16 where
the source casts with `as u16`. -/
def McsEncoder.add_block (enc : McsEncoder) (block_id : List Nat) (x y z : Int)
    (nbt : Option (List Nat)) : Except McStreamError McsEncoder :=
  if isAir block_id then .ok enc
  else
    let chunk_pos : ChunkPos := ⟨Int.fdiv x 16, Int.fdiv z 16⟩
    let local_pos : LocalBlockPos :=
      ⟨(x.emod 16).toNat, ((y + 64).emod 65536).toNat, (z.emod 16).toNat⟩
    match validate_local_pos local_pos with
    | .error e => .error e
    | .ok _ =>
      let chunk := (lookupChunk enc.chunks chunk_pos).getD
        { pos := chunk_pos, palette := [], blocks := [] }
      let paletteAndIdx :=
        match paletteIdxOf chunk.palette block_id with
        | some i => (chunk.palette, i % 65536)
        | none => (chunk.palette ++ [block_id],
                   ((chunk.palette ++ [block_id]).length - 1) % 65536)
      let chunk := { chunk with
        palette := paletteAndIdx.1
        blocks := chunk.blocks ++ [⟨paletteAndIdx.2, local_pos, nbt⟩] }
      .ok { enc with chunks := insertChunk enc.chunks chunk_pos chunk }

/-- `McsEncoder::add_blocks`. -/
def McsEncoder.add_blocks (enc : McsEncoder) (block_id : List Nat)
    (positions : List (Int × Int × Int)) (nbt : Option (List Nat)) :
    Except McStreamError McsEncoder :=
  match positions with
  | [] => .ok enc
  | (x, y, z) :: rest =>
    match enc.add_block block_id x y z nbt with
    | .error e => .error e
    | .ok enc => enc.add_blocks block_id rest nbt

/-- The validation loop of `McsEncoder::add_chunk`. -/
def validateBlocks : List Block → Except McStreamError Unit
  | [] => .ok ()
  | b :: rest =>
    match validate_local_pos b.pos with
    | .error e => .error e
    | .ok _ => validateBlocks rest

/-- `McsEncoder::add_chunk`: validates every local position, then inserts
the supplied chunk wholesale. -/
def McsEncoder.add_chunk (enc : McsEncoder) (chunk : ChunkData) :
    Except McStreamError McsEncoder :=
  match validateBlocks chunk.blocks with
  | .error e => .error e
  | .ok _ => .ok { enc with chunks := insertChunk enc.chunks chunk.pos chunk }

/-! ## The palette-index invariant (C5) -/

/-- Every block of the chunk indexes inside its palette. -/
def chunkPaletteInvB (c : ChunkData) : Bool :=
  c.blocks.all fun b => decide (b.palette_index < c.palette.length)

/-- The invariant over every chunk held by the encoder. -/
def encInvB (enc : McsEncoder) : Bool :=
  enc.chunks.all fun pc => chunkPaletteInvB pc.2

/-- One mutating call on the encoder. -/
inductive EncOp where
  | addBlockOp (block_id : List Nat) (x y z : Int) (nbt : Option (List Nat))
  | addBlocksOp (block_id : List Nat) (positions : List (Int × Int × Int))
      (nbt : Option (List Nat))
  | addChunkOp (chunk : ChunkData)

/-- Run one call. -/
def applyOp (enc : McsEncoder) : EncOp → Except McStreamError McsEncoder
  | .addBlockOp id x y z nbt => enc.add_block id x y z nbt
  | .addBlocksOp id ps nbt => enc.add_blocks id ps nbt
  | .addChunkOp c => enc.add_chunk c

/-- Run a call sequence, stopping at the first error like a `?`-propagating
caller would. -/
def applyOps : List EncOp → McsEncoder → Except McStreamError McsEncoder
  | [], enc => .ok enc
  | op :: rest, enc =>
    match applyOp enc op with
    | .error e => .error e
    | .ok enc => applyOps rest enc

/-- Every chunk handed to `add_chunk` in the sequence satisfies the
palette-index invariant itself. -/
def opChunksValid : List EncOp → Bool
  | [] => true
  | .addChunkOp c :: rest => chunkPaletteInvB c && opChunksValid rest
  | _ :: rest => opChunksValid rest

theorem paletteIdxOf_lt (palette : List (List Nat)) (block_id : List Nat) :
    ∀ i, paletteIdxOf palette block_id = some i → i < palette.length := by
  induction palette with
  | nil => intro i h; cases h
  | cons id rest ih =>
    intro i h
    simp only [paletteIdxOf] at h
    by_cases hid : id = block_id
    · rw [if_pos hid] at h
      cases h
      simp
    · rw [if_neg hid] at h
      cases hr : paletteIdxOf rest block_id with
      | none => rw [hr] at h; cases h
      | some j =>
        rw [hr] at h
        cases h
        have := ih j hr
        simp only [List.length_cons]
        omega

theorem encInvB_insert (chunks : List (ChunkPos × ChunkData)) (pos : ChunkPos)
    (c : ChunkData) (h1 : encInvB ⟨.none, false, chunks, none⟩ = true)
    (h2 : chunkPaletteInvB c = true) :
    (insertChunk chunks pos c).all (fun pc => chunkPaletteInvB pc.2) = true := by
  induction chunks with
  | nil => simp [insertChunk, h2]
  | cons pc rest ih =>
    obtain ⟨p, c0⟩ := pc
    simp only [encInvB, List.all_cons, Bool.and_eq_true] at h1
    simp only [insertChunk]
    by_cases hp : p = pos
    · simp [hp, h2, h1.2]
    · simp only [if_neg hp, List.all_cons, Bool.and_eq_true]
      exact ⟨h1.1, ih (by simp [encInvB, h1.2])⟩

theorem chunkPaletteInvB_lookup (chunks : List (ChunkPos × ChunkData))
    (h : chunks.all (fun pc => chunkPaletteInvB pc.2) = true) :
    ∀ pos c, lookupChunk chunks pos = some c → chunkPaletteInvB c = true := by
  induction chunks with
  | nil => intro pos c hl; cases hl
  | cons pc rest ih =>
    obtain ⟨p, c0⟩ := pc
    simp only [List.all_cons, Bool.and_eq_true] at h
    intro pos c hl
    simp only [lookupChunk] at hl
    by_cases hp : p = pos
    · rw [if_pos hp] at hl; cases hl; exact h.1
    · rw [if_neg hp] at hl; exact ih h.2 pos c hl

theorem chunkInv_iff (c : ChunkData) :
    chunkPaletteInvB c = true ↔ ∀ b ∈ c.blocks, b.palette_index < c.palette.length := by
  simp [chunkPaletteInvB, List.all_eq_true]

theorem add_block_inv (enc : McsEncoder) (block_id : List Nat) (x y z : Int)
    (nbt : Option (List Nat)) (enc' : McsEncoder) (h : encInvB enc = true)
    (hok : enc.add_block block_id x y z nbt = .ok enc') : encInvB enc' = true := by
  simp only [McsEncoder.add_block] at hok
  by_cases hair : isAir block_id
  · rw [if_pos hair] at hok; cases hok; exact h
  · rw [if_neg hair] at hok
    cases hv : validate_local_pos
        ⟨(x.emod 16).toNat, ((y + 64).emod 65536).toNat, (z.emod 16).toNat⟩ with
    | error e => rw [hv] at hok; cases hok
    | ok u =>
      rw [hv] at hok
      cases hok
      have hchunkInv : chunkPaletteInvB ((lookupChunk enc.chunks
          ⟨Int.fdiv x 16, Int.fdiv z 16⟩).getD
          { pos := ⟨Int.fdiv x 16, Int.fdiv z 16⟩, palette := [], blocks := [] }) = true := by
        cases hl : lookupChunk enc.chunks ⟨Int.fdiv x 16, Int.fdiv z 16⟩ with
        | none => simp [chunkPaletteInvB]
        | some c =>
          simp only [Option.getD]
          exact chunkPaletteInvB_lookup enc.chunks h _ c hl
      set chunk := (lookupChunk enc.chunks ⟨Int.fdiv x 16, Int.fdiv z 16⟩).getD
        { pos := ⟨Int.fdiv x 16, Int.fdiv z 16⟩, palette := [], blocks := [] } with hch
    -- the fragment below discharges the inserted chunk's invariant
      apply encInvB_insert enc.chunks _ _ (by simpa [encInvB] using h)
      rw [chunkInv_iff] at hchunkInv ⊢
      cases hfind : paletteIdxOf chunk.palette block_id with
      | some i =>
        have hi := paletteIdxOf_lt chunk.palette block_id i hfind
        simp only [hfind]
        intro b hb
        rcases List.mem_append.1 hb with hb | hb
        · exact hchunkInv b hb
        · simp only [List.mem_singleton] at hb
          subst hb
          exact lt_of_le_of_lt (Nat.mod_le _ _) hi
      | none =>
        simp only [hfind, List.length_append, List.length_cons, List.length_nil]
        intro b hb
        rcases List.mem_append.1 hb with hb | hb
        · have := hchunkInv b hb
          omega
        · simp only [List.mem_singleton] at hb
          subst hb
          have hmod := Nat.mod_le (chunk.palette.length + (0 + 1) - 1) 65536
          simp only [List.length_append, List.length_cons, List.length_nil]
          omega

theorem add_blocks_inv (block_id : List Nat) (positions : List (Int × Int × Int))
    (nbt : Option (List Nat)) :
    ∀ (enc enc' : McsEncoder), encInvB enc = true →
      enc.add_blocks block_id positions nbt = .ok enc' → encInvB enc' = true := by
  induction positions with
  | nil =>
    intro enc enc' h hok
    cases hok
    exact h
  | cons p rest ih =>
    obtain ⟨x, y, z⟩ := p
    intro enc enc' h hok
    simp only [McsEncoder.add_blocks] at hok
    cases hstep : enc.add_block block_id x y z nbt with
    | error e => rw [hstep] at hok; cases hok
    | ok enc1 =>
      rw [hstep] at hok
      exact ih enc1 enc' (add_block_inv enc block_id x y z nbt enc1 h hstep) hok

theorem add_chunk_inv (enc : McsEncoder) (chunk : ChunkData) (enc' : McsEncoder)
    (h : encInvB enc = true) (hc : chunkPaletteInvB chunk = true)
    (hok : enc.add_chunk chunk = .ok enc') : encInvB enc' = true := by
  simp only [McsEncoder.add_chunk] at hok
  cases hv : validateBlocks chunk.blocks with
  | error e => rw [hv] at hok; cases hok
  | ok u =>
    rw [hv] at hok
    cases hok
    exact encInvB_insert enc.chunks chunk.pos chunk (by simpa [encInvB] using h) hc

/-- C5 (amended): after any sequence of `add_block`, `add_blocks` and
`add_chunk` calls starting from a fresh encoder — provided every chunk
handed to `add_chunk` already satisfies the palette-index invariant, which
`add_chunk` itself never checks — every block of every chunk held in the
encoder's map has `palette_index < palette length`. -/
theorem encoder_palette_index_invariant (ops : List EncOp) (comp : CompressionType)
    (enc' : McsEncoder) (hops : opChunksValid ops = true)
    (happ : applyOps ops (McsEncoder.new comp) = .ok enc') :
    ∀ pc ∈ enc'.chunks, ∀ b ∈ pc.2.blocks, b.palette_index < pc.2.palette.length := by
  have hgen : ∀ (ops : List EncOp) (enc enc' : McsEncoder), opChunksValid ops = true →
      encInvB enc = true → applyOps ops enc = .ok enc' → encInvB enc' = true := by
    intro ops
    induction ops with
    | nil =>
      intro enc enc' _ h hok
      cases hok
      exact h
    | cons op rest ih =>
      intro enc enc' hops h hok
      simp only [applyOps] at hok
      cases hstep : applyOp enc op with
      | error e => rw [hstep] at hok; cases hok
      | ok enc1 =>
        rw [hstep] at hok
        have h1 : encInvB enc1 = true := by
          cases op with
          | addBlockOp id x y z nbt =>
            exact add_block_inv enc id x y z nbt enc1 h hstep
          | addBlocksOp id ps nbt =>
            exact add_blocks_inv id ps nbt enc enc1 h hstep
          | addChunkOp c =>
            have hc : chunkPaletteInvB c = true := by
              simp only [opChunksValid, Bool.and_eq_true] at hops
              exact hops.1
            exact add_chunk_inv enc c enc1 h hc hstep
        have hrest : opChunksValid rest = true := by
          cases op <;> simp_all [opChunksValid]
        exact ih enc1 enc' hrest h1 hok
  have hinv := hgen ops (McsEncoder.new comp) enc' hops rfl happ
  intro pc hpc b hb
  simp only [encInvB, List.all_eq_true] at hinv
  exact (chunkInv_iff pc.2).1 (hinv pc hpc) b hb

/-- Concrete call sequence exercising `encoder_palette_index_invariant`. -/
def c5Ops : List EncOp :=
  [.addBlockOp [115, 116, 111, 110, 101] 0 0 0 none,
   .addChunkOp ⟨⟨5, 5⟩, [[97]], [⟨0, ⟨1, 1, 1⟩, none⟩]⟩]

/-- The encoder state those two calls produce. -/
def c5Enc : McsEncoder :=
  { compression := .none
    has_signature := false
    chunks := [(⟨0, 0⟩, ⟨⟨0, 0⟩, [[115, 116, 111, 110, 101]], [⟨0, ⟨0, 64, 0⟩, none⟩]⟩),
               (⟨5, 5⟩, ⟨⟨5, 5⟩, [[97]], [⟨0, ⟨1, 1, 1⟩, none⟩]⟩)]
    signature := none }

/-- C5 witness: the invariant theorem applied to the concrete sequence,
with both hypotheses discharged by evaluation. -/
theorem encoder_palette_index_invariant_witness :
    opChunksValid c5Ops = true ∧
    applyOps c5Ops (McsEncoder.new .none) = .ok c5Enc ∧
    ∀ pc ∈ c5Enc.chunks, ∀ b ∈ pc.2.blocks, b.palette_index < pc.2.palette.length :=
  ⟨by decide, by decide,
    encoder_palette_index_invariant c5Ops .none c5Enc (by decide) (by decide)⟩

/-- The chunk refuting C5 as stated: an empty palette but a block whose
`palette_index` is 5. -/
def badChunk : ChunkData := ⟨⟨0, 0⟩, [], [⟨5, ⟨0, 0, 0⟩, none⟩]⟩

/-- The encoder state after `add_chunk(badChunk)` on a fresh encoder. -/
def badEnc : McsEncoder := ⟨.none, false, [(⟨0, 0⟩, badChunk)], none⟩

/-- C5 counterexample: `add_chunk` accepts `badChunk` (its local positions
are fine), and the resulting encoder holds a block whose `palette_index`
(5) is not a valid index into its chunk's empty palette. -/
theorem encoder_palette_index_counterexample :
    applyOps [.addChunkOp badChunk] (McsEncoder.new .none) = .ok badEnc ∧
    lookupChunk badEnc.chunks ⟨0, 0⟩ = some badChunk ∧
    badChunk.blocks = [⟨5, ⟨0, 0, 0⟩, none⟩] ∧
    badChunk.palette.length = 0 ∧
    ¬ ((5 : Nat) < badChunk.palette.length) := by
  exact ⟨by decide, by decide, by decide, by decide, by decide⟩

/-! ## Coordinate derivation (C6, C9, C10) and air handling (C8) -/

/-- C6: chunk coordinates are derived by floor division by 16 and local
coordinates by the low 4 bits: global x = −1 maps to chunk x = −1 and
local x = 15 (both in `BlockPos` and through `add_block`), and the
re-based y values for −64, −1, 0, 63 and 319 all decode back via
`actual_y` to their original values. -/
theorem chunk_local_derivation :
    BlockPos.chunk_pos ⟨-1, 0, -1⟩ = ⟨-1, -1⟩ ∧
    (BlockPos.local_pos ⟨-1, 0, -1⟩).x = 15 ∧
    (BlockPos.local_pos ⟨0, -64, 0⟩).actual_y = -64 ∧
    (BlockPos.local_pos ⟨0, -1, 0⟩).actual_y = -1 ∧
    (BlockPos.local_pos ⟨0, 0, 0⟩).actual_y = 0 ∧
    (BlockPos.local_pos ⟨0, 63, 0⟩).actual_y = 63 ∧
    (BlockPos.local_pos ⟨0, 319, 0⟩).actual_y = 319 ∧
    (McsEncoder.new .none).add_block [97] (-1) 0 (-1) none =
      .ok ⟨.none, false, [(⟨-1, -1⟩, ⟨⟨-1, -1⟩, [[97]], [⟨0, ⟨15, 64, 15⟩, none⟩]⟩)], none⟩ := by
  exact ⟨by decide, by decide, by decide, by decide, by decide, by decide, by decide,
    by decide⟩

/-- C8: `add_block` on an air-marked identifier is a complete no-op — the
encoder state is returned unchanged (no chunk created, no palette entry,
no block appended) and the call succeeds, for every position and
metadata. -/
theorem add_block_air_noop (enc : McsEncoder) (block_id : List Nat) (x y z : Int)
    (nbt : Option (List Nat)) (h : isAir block_id = true) :
    enc.add_block block_id x y z nbt = .ok enc := by
  simp [McsEncoder.add_block, h]

/-- C8 witness: inserting exactly `"minecraft:air"` at the origin leaves a
fresh encoder untouched. -/
theorem add_block_air_noop_witness :
    isAir airMarker = true ∧
    (McsEncoder.new .none).add_block airMarker 0 0 0 none = .ok (McsEncoder.new .none) :=
  ⟨by decide, add_block_air_noop (McsEncoder.new .none) airMarker 0 0 0 none (by decide)⟩

/-- C9: the y re-basing is truncated to 16 bits before validation: every
global y whose re-based value `(y + 64) mod 65536` is at most 383 passes
the guard, even when y itself lies far outside [−64, 319].  Concretely,
`add_block` at y = 65472 succeeds, stores local y 0, and that stored
coordinate decodes to −64, not 65472. -/
theorem add_block_y_wraparound :
    (∀ y : Int, (y + 64).emod 65536 ≤ 383 →
      validate_local_pos (BlockPos.local_pos ⟨0, y, 0⟩) = .ok ()) ∧
    ¬ ((-64 : Int) ≤ 65472 ∧ (65472 : Int) ≤ 319) ∧
    (McsEncoder.new .none).add_block [97] 0 65472 0 none =
      .ok ⟨.none, false, [(⟨0, 0⟩, ⟨⟨0, 0⟩, [[97]], [⟨0, ⟨0, 0, 0⟩, none⟩]⟩)], none⟩ ∧
    (BlockPos.local_pos ⟨0, 65472, 0⟩).y = 0 ∧
    (BlockPos.local_pos ⟨0, 65472, 0⟩).actual_y = -64 ∧
    ((-64 : Int) ≠ 65472) := by
  refine ⟨?_, by decide, by decide, by decide, by decide, by decide⟩
  intro y hy
  have ht : ((y + 64).emod 65536).toNat ≤ 383 := by omega
  simp only [validate_local_pos, BlockPos.local_pos]
  rw [if_neg]
  intro hcon
  rcases hcon with h1 | h2 | h3
  · exact absurd h1 (by decide)
  · exact absurd h2 (by decide)
  · omega

/-- C9 witness: the general guard-passing statement applied at the
out-of-range value y = 65472. -/
theorem add_block_y_wraparound_witness :
    ((65472 + 64 : Int).emod 65536 ≤ 383) ∧
    validate_local_pos (BlockPos.local_pos ⟨0, 65472, 0⟩) = .ok () :=
  ⟨by decide, add_block_y_wraparound.1 65472 (by decide)⟩

/-- C10: the air check precedes coordinate validation in `add_block`: an
air-marked identifier at a position whose derived local position fails the
guard is silently dropped (`Ok`, state unchanged) instead of being
reported as a coordinate-range error. -/
theorem add_block_air_skips_validation (enc : McsEncoder) (block_id : List Nat)
    (x y z : Int) (nbt : Option (List Nat)) (hair : isAir block_id = true)
    (_hbad : validate_local_pos (BlockPos.local_pos ⟨x, y, z⟩) =
      .error .coordinateOutOfRange) :
    enc.add_block block_id x y z nbt = .ok enc := by
  simp [McsEncoder.add_block, hair]

/-- C10 witness: air at y = 400 — whose local position fails the guard —
is still accepted as a no-op. -/
theorem add_block_air_skips_validation_witness :
    isAir airMarker = true ∧
    validate_local_pos (BlockPos.local_pos ⟨0, 400, 0⟩) =
      .error .coordinateOutOfRange ∧
    (McsEncoder.new .none).add_block airMarker 0 400 0 none = .ok (McsEncoder.new .none) :=
  ⟨by decide, by decide,
    add_block_air_skips_validation (McsEncoder.new .none) airMarker 0 400 0 none
      (by decide) (by decide)⟩

/-! ## Compression adapter (`src/compression.rs`)

The `None` branch is repository code (a byte-identical passthrough); the
other three branches delegate to the external `zstd`, `lz4` and `brotli`
crates, whose algorithms are not part of this repository.  Those externals
are therefore a parameter of the embedding. -/

/-- The external compression crates, as opaque byte transformers. -/
structure ExternalCodecs where
  zstdCompress : List Nat → Except McStreamError (List Nat)
  zstdDecompress : List Nat → Except McStreamError (List Nat)
  lz4Compress : List Nat → Except McStreamError (List Nat)
  lz4Decompress : List Nat → Except McStreamError (List Nat)
  brotliCompress : List Nat → Except McStreamError (List Nat)
  brotliDecompress : List Nat → Except McStreamError (List Nat)

/-- `compress_data`. -/
def compress_data (codecs : ExternalCodecs) (data : List Nat) :
    CompressionType → Except McStreamError (List Nat)
  | .none => .ok data
  | .zstandard => codecs.zstdCompress data
  | .lz4 => codecs.lz4Compress data
  | .brotli => codecs.brotliCompress data

/-- `decompress_data`. -/
def decompress_data (codecs : ExternalCodecs) (compressed_data : List Nat) :
    CompressionType → Except McStreamError (List Nat)
  | .none => .ok compressed_data
  | .zstandard => codecs.zstdDecompress compressed_data
  | .lz4 => codecs.lz4Decompress compressed_data
  | .brotli => codecs.brotliDecompress compressed_data

/-- `compression_type_from_u8`. -/
def compression_type_from_u8 (value : Nat) : Except McStreamError CompressionType :=
  match value with
  | 0 => .ok .none
  | 1 => .ok .zstandard
  | 2 => .ok .lz4
  | 3 => .ok .brotli
  | _ => .error (.unsupportedCompression value)

/-- `compress_chunk`. -/
def compress_chunk (codecs : ExternalCodecs) (chunk : ChunkData)
    (compression_type : CompressionType) : Except McStreamError (List Nat) :=
  match serialize_chunk chunk with
  | .error e => .error e
  | .ok bytes => compress_data codecs bytes compression_type

/-- Supporting fact for the compression adapter: the `None` algorithm is a
byte-identical passthrough in both directions, for every input. -/
theorem compress_none_passthrough (codecs : ExternalCodecs) (data : List Nat) :
    compress_data codecs data .none = .ok data ∧
    decompress_data codecs data .none = .ok data :=
  ⟨rfl, rfl⟩

/-! ## Header and index writing (`src/header.rs`, `src/chunk.rs`) -/

/-- `MCS_MAGIC` = `b"MCSTRM\0\0"`. -/
def MCS_MAGIC : List Nat := [77, 67, 83, 84, 82, 77, 0, 0]

/-- `MCS_VERSION` = `0x0100`. -/
def MCS_VERSION : Nat := 256

/-- `write_u16::<BigEndian>`. -/
def writeU16BE (v : Nat) : List Nat := [v / 256 % 256, v % 256]

/-- `compression as u8` (the `#[repr(u8)]` discriminants). -/
def compressionId : CompressionType → Nat
  | .none => 0
  | .zstandard => 1
  | .lz4 => 2
  | .brotli => 3

/-- A seekable output sink: a byte buffer plus a cursor, with overwriting
writes, modelling `BufWriter<File>` under `Seek`. -/
structure WriterBuf where
  data : List Nat
  pos : Nat
deriving DecidableEq

/-- `write_all`/`write_uN` at the cursor: overwrites in place, extends at
the end, and leaves any bytes past the written range alone. -/
def wwrite (w : WriterBuf) (bytes : List Nat) : WriterBuf :=
  { data := w.data.take w.pos ++ bytes ++ w.data.drop (w.pos + bytes.length)
    pos := w.pos + bytes.length }

/-- `seek(SeekFrom::Start(p))`. -/
def wseek (w : WriterBuf) (p : Nat) : WriterBuf := { w with pos := p }

/-- `write_header`: magic, version (BE), compression id, flags, placeholder
index offset, 4 reserved bytes — 20 bytes. -/
def write_header (w : WriterBuf) (compression : CompressionType)
    (has_signature : Bool) : WriterBuf :=
  wwrite w (MCS_MAGIC ++ writeU16BE MCS_VERSION ++ [compressionId compression]
    ++ [if has_signature then 1 else 0] ++ writeU32LE 0 ++ [0, 0, 0, 0])

/-- The per-entry loop of `write_chunk_index`. -/
def chunkIndexBytes : List ChunkIndexEntry → List Nat
  | [] => []
  | e :: rest =>
    writeI32LE e.chunk_x ++ writeI32LE e.chunk_z ++ writeU32LE e.data_offset
      ++ writeU32LE e.compressed_size ++ chunkIndexBytes rest

/-- `write_chunk_index`: `u32` count, then 16 bytes per entry. -/
def write_chunk_index (w : WriterBuf) (entries : List ChunkIndexEntry) : WriterBuf :=
  wwrite w (writeU32LE entries.length ++ chunkIndexBytes entries)

/-! ## Encoder write path (`McsEncoder::write_to_writer` / `write_to_file`) -/

/-- Step 4 of `write_to_writer`: compress every chunk (in map iteration
order) and build the index entries with placeholder offsets. -/
def buildChunks (codecs : ExternalCodecs) (compression : CompressionType) :
    List (ChunkPos × ChunkData) →
    Except McStreamError (List ChunkIndexEntry × List (List Nat))
  | [] => .ok ([], [])
  | (_, chunk) :: rest =>
    match compress_chunk codecs chunk compression with
    | .error e => .error e
    | .ok compressed =>
      match buildChunks codecs compression rest with
      | .error e => .error e
      | .ok (idx, datas) =>
        .ok (⟨chunk.pos.x, chunk.pos.z, 0, compressed.length % 4294967296⟩ :: idx,
             compressed :: datas)

/-- Step 6 of `write_to_writer`: write each compressed blob, recording the
running cursor (a wrapping `u32`) as the entry's true data offset. -/
def writeChunkDatas :
    WriterBuf → Nat → List ChunkIndexEntry → List (List Nat) →
    WriterBuf × List ChunkIndexEntry
  | w, _, [], _ => (w, [])
  | w, _, e :: es, [] => (w, e :: es)
  | w, cur, e :: es, d :: ds =>
    let w2 := wwrite w d
    let r := writeChunkDatas w2 ((cur + d.length) % 4294967296) es ds
    (r.1, { e with data_offset := cur } :: r.2)

/-- `McsEncoder::write_to_writer`: header, patched index offset, index with
placeholder offsets, chunk data, rewritten index, optional signature. -/
def write_to_writer (codecs : ExternalCodecs) (enc : McsEncoder) :
    Except McStreamError (List Nat) :=
  if enc.chunks.isEmpty then .error (.validationError "没有区块数据可写入")
  else
    let w := write_header ⟨[], 0⟩ enc.compression enc.has_signature
    let index_table_offset := 20
    let w := wwrite (wseek w 12) (writeU32LE index_table_offset)
    let w := wseek w index_table_offset
    match buildChunks codecs enc.compression enc.chunks with
    | .error e => .error e
    | .ok (chunk_index, chunk_data) =>
      let w := write_chunk_index w chunk_index
      let current_offset := w.pos % 4294967296
      let wi := writeChunkDatas w current_offset chunk_index chunk_data
      let w := write_chunk_index (wseek wi.1 index_table_offset) wi.2
      let w := wseek w w.data.length
      let w := if enc.has_signature && enc.signature.isSome then
          wwrite w (enc.signature.getD []) else w
      .ok w.data

/-! ## Single-directory filesystem model for `write_to_file`

`write_to_file` touches the filesystem through `path.exists()`,
`fs::remove_file`, `OpenOptions::create_new(true)` and buffered writes;
`create_dir_all` on the parent falls outside this single-directory model. -/

/-- `path.exists()`. -/
def fsExists (fs : List (String × List Nat)) (path : String) : Bool :=
  fs.any fun kv => kv.1 == path

/-- `fs::remove_file`. -/
def fsRemove (fs : List (String × List Nat)) (path : String) :
    List (String × List Nat) :=
  fs.filter fun kv => kv.1 != path

/-- Read a file's contents back out of the model. -/
def fsLookup (fs : List (String × List Nat)) (path : String) : Option (List Nat) :=
  (fs.find? fun kv => kv.1 == path).map fun kv => kv.2

/-- `OpenOptions::new().write(true).create_new(true).open(path)`: fails if
the path exists, otherwise creates an empty file. -/
def fsCreateNew (fs : List (String × List Nat)) (path : String) :
    Except McStreamError (List (String × List Nat)) :=
  if fsExists fs path then .error (.ioError "File exists")
  else .ok (fs ++ [(path, [])])

/-- Replace the contents stored at `path`. -/
def fsSet (fs : List (String × List Nat)) (path : String) (bytes : List Nat) :
    List (String × List Nat) :=
  fs.map fun kv => if kv.1 == path then (kv.1, bytes) else kv

/-- `McsEncoder::write_to_file`: removes an existing target, then creates
the file exclusively and streams `write_to_writer` into it.  If the writer
fails, the freshly created file is left behind empty (the buffered writer
is dropped without flushing). -/
def McsEncoder.write_to_file (enc : McsEncoder) (codecs : ExternalCodecs)
    (fs : List (String × List Nat)) (path : String) :
    Except McStreamError Unit × List (String × List Nat) :=
  let fs := if fsExists fs path then fsRemove fs path else fs
  match fsCreateNew fs path with
  | .error e => (.error e, fs)
  | .ok fs =>
    match write_to_writer codecs enc with
    | .error e => (.error e, fs)
    | .ok bytes => (.ok (), fsSet fs path bytes)

theorem fsExists_remove (fs : List (String × List Nat)) (path : String) :
    fsExists (fsRemove fs path) path = false := by
  induction fs with
  | nil => rfl
  | cons kv rest ih =>
    simp only [fsRemove, List.filter_cons]
    by_cases hk : kv.1 == path
    · simp only [bne, hk, Bool.not_true, Bool.false_eq_true, if_false, ite_false]
      simp only [fsRemove] at ih
      exact ih
    · simp only [bne, hk, Bool.not_false, if_true, ite_true, fsExists, List.any_cons, hk,
        Bool.false_or]
      simp only [fsExists, fsRemove] at ih
      exact ih

theorem fsExists_append_self (fs : List (String × List Nat)) (path : String) :
    fsExists (fs ++ [(path, [])]) path = true := by
  simp [fsExists, List.any_append]

theorem fsLookup_fsSet (fs : List (String × List Nat)) (path : String)
    (bytes : List Nat) (h : fsExists fs path = true) :
    fsLookup (fsSet fs path bytes) path = some bytes := by
  induction fs with
  | nil => cases h
  | cons kv rest ih =>
    simp only [fsSet, List.map_cons]
    by_cases hk : kv.1 == path
    · simp [fsLookup, List.find?, hk]
    · simp only [hk, Bool.false_eq_true, if_false, ite_false]
      simp only [fsExists, List.any_cons, hk, Bool.false_or] at h
      simpa [fsLookup, List.find?, hk, fsSet] using ih h

/-- C1 (amended): for every path that already exists, `write_to_file`
first deletes the existing file, then creates the target anew: the call's
result is exactly the writer's result (the exclusive-creation failure can
never fire), and on success the path holds the newly written bytes —
the pre-existing contents are destroyed, not preserved. -/
theorem write_to_file_overwrites (codecs : ExternalCodecs) (enc : McsEncoder)
    (fs : List (String × List Nat)) (path : String)
    (h : fsExists fs path = true) :
    ((enc.write_to_file codecs fs path).1 =
      (write_to_writer codecs enc).map fun _ => ()) ∧
    ∀ bytes, write_to_writer codecs enc = .ok bytes →
      fsLookup (enc.write_to_file codecs fs path).2 path = some bytes := by
  have hrem := fsExists_remove fs path
  have hcreate : fsCreateNew (fsRemove fs path) path =
      .ok (fsRemove fs path ++ [(path, [])]) := by
    simp [fsCreateNew, hrem]
  constructor
  · simp only [McsEncoder.write_to_file, h, if_true, ite_true, hcreate]
    cases hw : write_to_writer codecs enc <;> simp [Except.map]
  · intro bytes hw
    simp only [McsEncoder.write_to_file, h, if_true, ite_true, hcreate, hw]
    exact fsLookup_fsSet _ path bytes (fsExists_append_self _ path)

/-- External codecs instantiated to the identity (never invoked when the
compression type is `None`). -/
def idCodecs : ExternalCodecs :=
  ⟨fun d => .ok d, fun d => .ok d, fun d => .ok d,
   fun d => .ok d, fun d => .ok d, fun d => .ok d⟩

/-- One file already on disk. -/
def fs0 : List (String × List Nat) := [("out.mcs", [1, 2, 3])]

/-- An encoder holding one chunk with one block. -/
def encStone : McsEncoder :=
  ⟨.none, false, [(⟨0, 0⟩, ⟨⟨0, 0⟩, [[97]], [⟨0, ⟨0, 64, 0⟩, none⟩]⟩)], none⟩

/-- C1 witness: the overwrite theorem applied to `encStone`, `fs0` and the
existing path. -/
theorem write_to_file_overwrites_witness :
    fsExists fs0 "out.mcs" = true ∧
    (((encStone.write_to_file idCodecs fs0 "out.mcs").1 =
        (write_to_writer idCodecs encStone).map fun _ => ()) ∧
      ∀ bytes, write_to_writer idCodecs encStone = .ok bytes →
        fsLookup (encStone.write_to_file idCodecs fs0 "out.mcs").2 "out.mcs" =
          some bytes) :=
  ⟨by decide, write_to_file_overwrites idCodecs encStone fs0 "out.mcs" (by decide)⟩

/-- C1 counterexample: with `out.mcs` already present, `write_to_file`
returns `Ok` (the claim demands failure) and the old contents `[1, 2, 3]`
are gone. -/
theorem write_to_file_existing_counterexample :
    fsExists fs0 "out.mcs" = true ∧
    (encStone.write_to_file idCodecs fs0 "out.mcs").1 = .ok () ∧
    fsLookup (encStone.write_to_file idCodecs fs0 "out.mcs").2 "out.mcs" ≠
      some [1, 2, 3] := by
  exact ⟨by decide, by decide, by decide⟩

/-! ## Decoder index bounds check (`src/unpacker.rs`, `from_file` lines 62–70) -/

/-- The per-entry loop `for entry in &index_entries { let chunk_end =
(entry.data_offset + entry.compressed_size) as u64; if chunk_end >
file_size { return Err(...) } }`.  The sum of the two `u32`s is computed
in 32 bits *before* the `as u64` cast: release builds wrap modulo 2^32
(debug builds panic on the overflow). -/
def checkChunkBounds : List ChunkIndexEntry → Nat → Except McStreamError Unit
  | [], _ => .ok ()
  | entry :: rest, file_size =>
    let chunk_end := (entry.data_offset + entry.compressed_size) % 4294967296
    if chunk_end > file_size then .error (.validationError "区块数据超出文件范围")
    else checkChunkBounds rest file_size

/-- C3: the bounds check of `from_file` is modular, not exact: the entry
with `data_offset = 4294967295` and `compressed_size = 1` has an exact end
of 2^32, far beyond a 30-byte file, yet the wrapped 32-bit sum is 0 and
the check passes — `from_file` proceeds to read chunk data instead of
returning the validation error the spec requires. -/
theorem index_bounds_check_wraps :
    checkChunkBounds [⟨0, 0, 4294967295, 1⟩] 30 = .ok () ∧
    4294967295 + 1 > 30 := by
  exact ⟨by decide, by decide⟩

/-- Supporting fact: whenever no entry's exact end exceeds 2^32 − 1 (so no
addition wraps), the check does reject exactly the entries whose exact end
exceeds the file size — the wrap is the only discrepancy. -/
theorem checkChunkBounds_exact (entries : List ChunkIndexEntry) (file_size : Nat)
    (hnw : ∀ e ∈ entries, e.data_offset + e.compressed_size < 4294967296) :
    checkChunkBounds entries file_size = .ok () ↔
      ∀ e ∈ entries, e.data_offset + e.compressed_size ≤ file_size := by
  induction entries with
  | nil => simp [checkChunkBounds]
  | cons e rest ih =>
    have he := hnw e (List.mem_cons_self _ _)
    have hmod : (e.data_offset + e.compressed_size) % 4294967296 =
        e.data_offset + e.compressed_size := Nat.mod_eq_of_lt he
    simp only [checkChunkBounds, hmod]
    by_cases hgt : e.data_offset + e.compressed_size > file_size
    · simp only [if_pos hgt]
      constructor
      · intro hc; cases hc
      · intro hall
        exact absurd (hall e (List.mem_cons_self _ _)) (by omega)
    · simp only [if_neg hgt]
      rw [ih (fun e hm => hnw e (List.mem_cons_of_mem _ hm))]
      constructor
      · intro hall e' he'
        rcases List.mem_cons.1 he' with rfl | hm
        · omega
        · exact hall e' hm
      · intro hall e' hm
        exact hall e' (List.mem_cons_of_mem _ hm)

/-- `checkChunkBounds_exact` witness at a concrete in-range index. -/
theorem checkChunkBounds_exact_witness :
    (∀ e ∈ [ChunkIndexEntry.mk 0 0 20 10], e.data_offset + e.compressed_size < 4294967296) ∧
    (checkChunkBounds [ChunkIndexEntry.mk 0 0 20 10] 30 = .ok () ↔
      ∀ e ∈ [ChunkIndexEntry.mk 0 0 20 10], e.data_offset + e.compressed_size ≤ 30) :=
  ⟨by decide, checkChunkBounds_exact [ChunkIndexEntry.mk 0 0 20 10] 30 (by decide)⟩

end MCStream

